import Mathlib

/-!
# DocScraper — verification of the crawl / extract / organize pipeline

Shallow embedding of the Go program in `src/main.go` (package `main` of
SellMindsAI/DocScraper), together with theorems settling the specification
claims about it.

Embedding conventions:

* Go strings are modelled in two ways, chosen per function for faithfulness:
  byte sequences (`GoBytes = List Nat`) where Go's byte-level `len`/slicing
  matters (`sanitizeFilename`, `filepath.Base`), and rune sequences
  (`GoStr = List Char`) elsewhere.
* `strings.ToLower` is modelled with the ASCII case mappings and Go's
  replacement of invalid UTF-8 bytes by U+FFFD (`strings.Map` behaviour);
  non-ASCII case mappings are not modelled, so "lower-case" in the theorems
  means "contains no ASCII uppercase letter".
* `net/url.Parse` is modelled total (it essentially never fails on the URL
  shapes this program builds); the error branches guarded by it in the source
  are therefore not reachable in the model.
* Functions that scan ahead in a string (substring split) take a fuel
  argument so that they are structurally recursive and kernel-reducible;
  the wrappers pass `length + 1` fuel, which is always sufficient because
  every step consumes at least one element.
* The crawl loop of `Scraper.Scrape` is a step function over an explicit
  state (frontier queue, processed map, visited map, recorded pages, file
  writes) driven by a `World` function abstracting the network: for each URL
  it either fails (scrapePage's fetch/parse error), yields a page whose link
  fetch fails, or yields a page plus the raw `href` values found on it.
  The crawl records a trace of events (dequeue, fetch attempt, failure,
  processing, enqueue) so that claims about "ever enqueued / ever fetched"
  are statable.
-/

namespace DocScraper

/-! ## Byte-level Go strings -/

/-- A Go string at byte level.  Go's `len`, `s[:n]` and `range`-free indexing
act on bytes, which matters for `sanitizeFilename`'s 100-byte truncation. -/
abbrev GoBytes := List Nat

/-- The bytes of an ASCII string literal (used to state concrete facts). -/
def asciiBytes (s : String) : GoBytes := s.toList.map Char.toNat

/-- Is `b` a UTF-8 continuation byte (`0x80..0xBF`)? -/
def isCont (b : Nat) : Bool := 0x80 ≤ b && b ≤ 0xBF

/-- Decode the first UTF-8 rune of a byte sequence: `some (rune, size)` for a
valid encoding, `none` otherwise.  Mirrors Go's `utf8.DecodeRune` accept
ranges (overlong encodings and surrogates are rejected; an invalid sequence
is reported so that the caller consumes one byte, as Go does). -/
def utf8DecodeHead : GoBytes → Option (Nat × Nat)
  | [] => none
  | b :: rest =>
    if b < 0x80 then some (b, 1)
    else if 0xC2 ≤ b && b ≤ 0xDF then
      match rest with
      | b1 :: _ => if isCont b1 then some ((b - 0xC0) * 64 + (b1 - 0x80), 2) else none
      | _ => none
    else if 0xE0 ≤ b && b ≤ 0xEF then
      match rest with
      | b1 :: b2 :: _ =>
        let lo1 := if b = 0xE0 then 0xA0 else 0x80
        let hi1 := if b = 0xED then 0x9F else 0xBF
        if (lo1 ≤ b1 && b1 ≤ hi1) && isCont b2 then
          some ((b - 0xE0) * 4096 + (b1 - 0x80) * 64 + (b2 - 0x80), 3)
        else none
      | _ => none
    else if 0xF0 ≤ b && b ≤ 0xF4 then
      match rest with
      | b1 :: b2 :: b3 :: _ =>
        let lo1 := if b = 0xF0 then 0x90 else 0x80
        let hi1 := if b = 0xF4 then 0x8F else 0xBF
        if ((lo1 ≤ b1 && b1 ≤ hi1) && isCont b2) && isCont b3 then
          some ((b - 0xF0) * 262144 + (b1 - 0x80) * 4096 + (b2 - 0x80) * 64 + (b3 - 0x80), 4)
        else none
      | _ => none
    else none

/-- Go `unicode.ToLower`, restricted to the ASCII case mappings (the non-ASCII
mappings of the Unicode tables are not modelled; on them this model is the
identity). -/
def toLowerRune (r : Nat) : Nat := if 65 ≤ r && r ≤ 90 then r + 32 else r

/-- Canonical UTF-8 encoding of a rune (Go `utf8.AppendRune` for valid runes). -/
def utf8Encode (r : Nat) : GoBytes :=
  if r < 0x80 then [r]
  else if r < 0x800 then [0xC0 + r / 64, 0x80 + r % 64]
  else if r < 0x10000 then [0xE0 + r / 4096, 0x80 + r / 64 % 64, 0x80 + r % 64]
  else [0xF0 + r / 262144, 0x80 + r / 4096 % 64, 0x80 + r / 64 % 64, 0x80 + r % 64]

/-- The rune-by-rune pass of Go `strings.ToLower` (`strings.Map` with
`unicode.ToLower`): valid runes are mapped and re-encoded, each invalid byte
is replaced by U+FFFD (bytes `EF BF BD`).  Structural in `fuel`; every step
consumes at least one byte, so `length + 1` fuel always suffices. -/
def mapToLowerGo : Nat → GoBytes → GoBytes
  | 0, _ => []
  | fuel + 1, bs =>
    match bs with
    | [] => []
    | b :: rest =>
      match utf8DecodeHead (b :: rest) with
      | some (r, n) => utf8Encode (toLowerRune r) ++ mapToLowerGo fuel ((b :: rest).drop n)
      | none => 0xEF :: 0xBF :: 0xBD :: mapToLowerGo fuel rest

/-- Go `strings.ToLower` at byte level. -/
def goToLower (bs : GoBytes) : GoBytes := mapToLowerGo (bs.length + 1) bs

/-- Go `strings.ReplaceAll` for a single-byte pattern and single-byte
replacement (all patterns in `sanitizeFilename` are single ASCII bytes, so
occurrence replacement is a byte map). -/
def goReplaceAllByte (old new : Nat) (bs : GoBytes) : GoBytes :=
  bs.map fun b => if b = old then new else b

/-- The reserved characters of `sanitizeFilename` (src/main.go line 84):
`/ \ ? % * : | " < > . `&nbsp;(period and space included), as bytes. -/
def invalidChars : GoBytes := [47, 92, 63, 37, 42, 58, 124, 34, 60, 62, 46, 32]

/-- `sanitizeFilename` (src/main.go lines 83–96): lower-case, replace each
reserved character by `_`, substitute `"unnamed"` for an empty result, and
truncate to 100 *bytes* (`result[:100]` is a byte slice in Go). -/
def sanitizeFilename (name : GoBytes) : GoBytes :=
  let result := goToLower name
  let result := invalidChars.foldl (fun r c => goReplaceAllByte c 95 r) result
  let result := if result.length = 0 then asciiBytes "unnamed" else result
  if result.length > 100 then result.take 100 else result

/-- Go `path/filepath.Base` on unix, at byte level: `.` for the empty path,
strip trailing separators, keep everything after the last separator, `/` if
nothing remains. -/
def goFilepathBase (p : GoBytes) : GoBytes :=
  if p = [] then [46]
  else
    let p1 := (p.reverse.dropWhile (fun b => b = 47)).reverse
    let base := (p1.reverse.takeWhile (fun b => b ≠ 47)).reverse
    if base = [] then [47] else base

/-- Filename derivation in `scrapePage` (src/main.go lines 309–313): sanitize
the title; if the result is the *empty string*, fall back to the sanitized
final URL path segment; append `.md`. -/
def deriveFilename (title url : GoBytes) : GoBytes :=
  let filename := sanitizeFilename title
  let filename := if filename = [] then sanitizeFilename (goFilepathBase url) else filename
  filename ++ asciiBytes ".md"

/-- 34 copies of the euro sign's UTF-8 bytes `E2 82 AC` (102 bytes): an input
whose 100-byte truncation cuts a rune in half. -/
def euroRepeat : Nat → GoBytes
  | 0 => []
  | n + 1 => 0xE2 :: 0x82 :: 0xAC :: euroRepeat n

/-! ## Rune-level Go strings -/

/-- A Go string as its rune sequence (used where byte-level slicing plays no
role). -/
abbrev GoStr := List Char

/-- The rune list of a string literal. -/
def gs (s : String) : GoStr := s.toList

/-- Go `strings.Contains`: does `sub` occur somewhere in `s`? -/
def containsSub : GoStr → GoStr → Bool
  | [], sub => sub.isEmpty
  | c :: cs, sub => sub.isPrefixOf (c :: cs) || containsSub cs sub

/-- Go `strings.TrimPrefix`: drop `pre` from the front of `s` if present. -/
def goTrimPrefixL (s pre : GoStr) : GoStr :=
  if pre.isPrefixOf s then s.drop pre.length else s

/-- Go `strings.Trim` for a single-character cutset: remove leading and
trailing copies of `c`. -/
def goTrimCut (s : GoStr) (c : Char) : GoStr :=
  ((s.dropWhile (fun x => x = c)).reverse.dropWhile (fun x => x = c)).reverse

/-- Go `unicode.IsSpace` on the white space runes below U+2000 (`\t \n \v \f
\r`, space, NEL, NBSP); the exotic higher spaces are not modelled. -/
def isGoSpace (c : Char) : Bool :=
  c = ' ' || c = '\t' || c = '\n' || c = '\r' || c.toNat = 11 || c.toNat = 12 ||
    c.toNat = 0x85 || c.toNat = 0xA0

/-- Go `strings.TrimSpace`. -/
def goTrimSpace (s : GoStr) : GoStr :=
  ((s.dropWhile isGoSpace).reverse.dropWhile isGoSpace).reverse

/-- One pass of Go `strings.Split` for a non-empty separator; `acc` holds the
reversed characters of the current piece.  Structural in `fuel`; each step
consumes at least one character, so `length + 1` fuel suffices. -/
def splitGo (sep : GoStr) : Nat → GoStr → GoStr → List GoStr
  | 0, acc, s => [acc.reverse ++ s]
  | fuel + 1, acc, s =>
    match s with
    | [] => [acc.reverse]
    | c :: cs =>
      if sep.isPrefixOf (c :: cs) then
        acc.reverse :: splitGo sep fuel [] ((c :: cs).drop sep.length)
      else
        splitGo sep fuel (c :: acc) cs

/-- Go `strings.Split` (for the non-empty separators this program uses). -/
def goSplit (s sep : GoStr) : List GoStr := splitGo sep (s.length + 1) [] s

/-! ## URLs -/

/-- The fields of `net/url.URL` this program reads. -/
structure GoURL where
  scheme : GoStr
  host : GoStr
  path : GoStr
deriving DecidableEq, Repr

/-- Split a rune list at the first occurrence of `"://"`. -/
def schemeSplit : GoStr → Option (GoStr × GoStr)
  | [] => none
  | c :: cs =>
    if c = ':' ∧ cs.take 2 = ['/', '/'] then some ([], cs.drop 2)
    else
      match schemeSplit cs with
      | some (a, b) => some (c :: a, b)
      | none => none

/-- Split an authority-plus-path suffix into host (up to the first `/`) and
path, after cutting off query and fragment. -/
def hostPathSplit (s : GoStr) : GoStr × GoStr :=
  let stripped := s.takeWhile (fun c => c ≠ '?' ∧ c ≠ '#')
  (stripped.takeWhile (fun c => c ≠ '/'), stripped.dropWhile (fun c => c ≠ '/'))

/-- `net/url.Parse`, modelled total on the URL shapes this program builds:
`scheme://host/path...` splits into its three parts, a protocol-relative
`//host/path` has an empty scheme, and anything else is all path.  Query and
fragment are cut off; percent-decoding of the path and `Parse`'s rare error
cases (control bytes) are not modelled. -/
def parseURL (s : GoStr) : GoURL :=
  match schemeSplit s with
  | some (sch, rest) =>
    let hp := hostPathSplit rest
    { scheme := sch, host := hp.1, path := hp.2 }
  | none =>
    if (gs "//").isPrefixOf s then
      let hp := hostPathSplit (s.drop 2)
      { scheme := [], host := hp.1, path := hp.2 }
    else { scheme := [], host := [], path := s.takeWhile (fun c => c ≠ '?' ∧ c ≠ '#') }

/-- `extractDomainPrefix` (src/main.go lines 75–81): `scheme://host` of the
raw base URL. -/
def domainPrefixOf (rawURL : GoStr) : GoStr :=
  let u := parseURL rawURL
  u.scheme ++ gs "://" ++ u.host

/-- `Scraper.resolveURL` (src/main.go lines 108–123).  Note that the first
branch tests for the literal character prefix `"http"`, not for the presence
of a URL scheme. -/
def resolveURL (baseURL : GoStr) (href : GoStr) : GoStr :=
  if (gs "http").isPrefixOf href then href
  else if (gs "//").isPrefixOf href then (parseURL baseURL).scheme ++ gs ":" ++ href
  else if (gs "/").isPrefixOf href then domainPrefixOf baseURL ++ href
  else baseURL ++ gs "/" ++ href

/-- The fixed denylist of path infixes (src/main.go lines 146–150). -/
def ignorePaths : List GoStr :=
  [gs "/assets/", gs "/static/", gs "/img/", gs "/images/",
   gs "/js/", gs "/css/", gs "/fonts/", gs "/examples/",
   gs "/blog/", gs "/community/", gs "/download/"]

/-- The URL path relative to the base path (src/main.go line 144). -/
def relPathOf (baseURL u : GoStr) : GoStr :=
  goTrimPrefixL (parseURL u).path (parseURL baseURL).path

/-- `Scraper.shouldProcessURL` (src/main.go lines 125–159): reject cross-host
URLs, URLs in `visitedURLs`, and URLs whose relative path contains a
denylisted infix; accept everything else. -/
def shouldProcessURL (baseURL : GoStr) (visitedURLs : List GoStr) (urlStr : GoStr) : Bool :=
  if (parseURL urlStr).host ≠ (parseURL baseURL).host then false
  else if urlStr ∈ visitedURLs then false
  else if ignorePaths.any (fun ig => containsSub (relPathOf baseURL urlStr) ig) then false
  else true

/-- `shouldProcessURL` with the `visitedURLs` test removed — the function
claim C9 compares the real one against. -/
def shouldProcessNoVisited (baseURL : GoStr) (urlStr : GoStr) : Bool :=
  if (parseURL urlStr).host ≠ (parseURL baseURL).host then false
  else if ignorePaths.any (fun ig => containsSub (relPathOf baseURL urlStr) ig) then false
  else true

/-- The depth computation of `scrapePage` (src/main.go lines 248–249): strip
the base URL, trim `/` from both ends, split on `/`, count the pieces. -/
def pageLevel (baseURL url : GoStr) : Nat :=
  (goSplit (goTrimCut (goTrimPrefixL url baseURL) '/') (gs "/")).length

/-! ## Code-fence language detection -/

/-- The three recognized class prefixes (src/main.go line 268), in loop
order. -/
def langClasses : List GoStr := [gs "language-", gs "lang-", gs "brush:"]

/-- `strings.Split(x, " ")[0]`. -/
def firstSpaceWord (x : GoStr) : GoStr := (goSplit x (gs " ")).headD []

/-- The class-attribute scan of the `pre` case in `scrapePage`
(src/main.go lines 266–278): for the first of the three known prefixes
contained in the class, split the class on that prefix and keep the second
piece up to the first space; `[]` when no prefix matches. -/
def detectLangGo : List GoStr → GoStr → GoStr
  | [], _ => []
  | p :: ps, cls =>
    if containsSub cls p then
      let parts := goSplit cls p
      if parts.length > 1 then firstSpaceWord (parts.getD 1 []) else detectLangGo ps cls
    else detectLangGo ps cls

/-- Language tag extracted from a `code` element's class attribute. -/
def detectLang (cls : GoStr) : GoStr := detectLangGo langClasses cls

/-- Rendering of a `pre` block with an embedded `code` element
(src/main.go lines 264–287): `className` is the code element's class
attribute when it has one; `codeText` its text.  Empty trimmed code renders
nothing. -/
def renderPre (className : Option GoStr) (codeText : GoStr) : GoStr :=
  let lang := match className with
    | some c => detectLang c
    | none => []
  let code := goTrimSpace codeText
  if code = [] then []
  else if lang ≠ [] then gs "```" ++ lang ++ gs "\n" ++ code ++ gs "\n```\n\n"
  else gs "```\n" ++ code ++ gs "\n```\n\n"

/-- Modelled from the spec: "the substring following the first matching
prefix" — the remainder of the string after the first occurrence of `sep`. -/
def specAfterFirst (sep : GoStr) : GoStr → Option GoStr
  | [] => none
  | c :: cs =>
    if sep.isPrefixOf (c :: cs) then some ((c :: cs).drop sep.length)
    else specAfterFirst sep cs

/-- Modelled from the spec: claim C7's reading of the language tag — "the
substring following the first matching prefix up to the next whitespace". -/
def specLangTag (cls : GoStr) : GoStr :=
  match langClasses.find? (fun p => containsSub cls p) with
  | some p => ((specAfterFirst p cls).getD []).takeWhile (fun c => !(isGoSpace c))
  | none => []

/-- Modelled from the spec: a character allowed inside an RFC 3986 scheme. -/
def isSchemeChar (c : Char) : Bool := c.isAlphanum || c = '+' || c = '-' || c = '.'

/-- Scan the tail of a candidate scheme: scheme characters until a `:`. -/
def schemeScan : GoStr → Bool
  | [] => false
  | c :: cs => if c = ':' then true else isSchemeChar c && schemeScan cs

/-- Modelled from the spec: claim C5's "href already carries a scheme" — an
RFC 3986 scheme (a letter, then letters/digits/`+`/`-`/`.`) followed by
`:`. -/
def specHasScheme : GoStr → Bool
  | [] => false
  | c :: cs => c.isAlpha && schemeScan cs

/-! ## The crawl engine -/

/-- Output organization (src/main.go lines 19–25). -/
inductive Organization where
  | SingleFile
  | ByChapters
  | ByPages
deriving DecidableEq, Repr

/-- A `Page` as produced by `scrapePage` (src/main.go lines 27–33).  Content
extraction is abstracted: the `World` below supplies the page a URL yields;
the relation of `filename`/`level` to title and URL is settled separately by
the byte-level `deriveFilename` and `pageLevel`. -/
structure GoPage where
  title : GoStr
  content : GoStr
  url : GoStr
  filename : GoStr
  level : Nat
deriving DecidableEq, Repr

/-- What the network does for one URL: `scrapePage`'s fetch/parse fails; or a
page is produced but the separate fetch inside `getAllDocLinks` fails
(`page p none`); or a page is produced and the link fetch finds the given raw
`href` values in document order (`page p (some hrefs)`).  `getAllDocLinks`
re-fetches the same URL; the model answers both fetches consistently from
this one function. -/
inductive FetchResult where
  | fetchFail : FetchResult
  | page : GoPage → Option (List GoStr) → FetchResult

/-- The environment of one crawl: any site, any failures. -/
abbrev World := GoStr → FetchResult

/-- The per-run configuration a `Scraper` is built with (src/main.go lines
35–65); delays are irrelevant to the claims and not modelled. -/
structure CrawlConfig where
  baseURL : GoStr
  outputPath : GoStr
  outputDir : GoStr
  organization : Organization
  singlePage : Bool

/-- Crawl-trace events: `deq u` — `u` taken off the front of the queue;
`att u` — `scrapePage(u)` called (a fetch attempt); `failEv u` — that call
failed; `procEv u` — `u` marked in the `processed` map and its page recorded;
`enq u` — `u` appended to the back of the queue. -/
inductive Ev where
  | deq : GoStr → Ev
  | att : GoStr → Ev
  | failEv : GoStr → Ev
  | procEv : GoStr → Ev
  | enq : GoStr → Ev
deriving DecidableEq, Repr

/-- The mutable state of `Scraper.Scrape`'s crawl loop (src/main.go lines
366–412): the frontier `queue` (`links`), the loop-local `processed` map, the
`Scraper`'s `visitedURLs` and `pages` fields, the file writes performed so
far, and the accumulated `mainContent`.  `trace` records events for the
theorems. -/
structure CrawlState where
  queue : List GoStr
  processed : List GoStr
  visitedURLs : List GoStr
  pagesRec : List GoPage
  writes : List (GoStr × GoStr)
  mainContent : GoStr
  trace : List Ev

/-- `filepath.Join` for the already-clean arguments this program produces. -/
def goJoin (dir name : GoStr) : GoStr := dir ++ gs "/" ++ name

/-- One iteration of the crawl loop (src/main.go lines 370–412): dequeue; if
already processed, skip; `scrapePage` (failure: log and continue, nothing
marked); on success write or accumulate per the organization mode, record the
page, mark processed; `getAllDocLinks` (each `href` resolved and filtered
with `shouldProcessURL` against the scraper's `visitedURLs` field); append to
the queue those found links not in `processed`. -/
def step (cfg : CrawlConfig) (world : World) (st : CrawlState) : CrawlState :=
  match st.queue with
  | [] => st
  | u :: rest =>
    if u ∈ st.processed then
      { st with queue := rest, trace := st.trace ++ [Ev.deq u] }
    else
      match world u with
      | FetchResult.fetchFail =>
        { st with queue := rest, trace := st.trace ++ [Ev.deq u, Ev.att u, Ev.failEv u] }
      | FetchResult.page p linkRes =>
        let writes' := if cfg.organization = Organization.SingleFile then st.writes
          else st.writes ++ [(goJoin cfg.outputDir p.filename, p.content)]
        let main' := if cfg.organization = Organization.SingleFile
          then st.mainContent ++ p.content else st.mainContent
        let processed' := st.processed ++ [u]
        match linkRes with
        | none =>
          { queue := rest, processed := processed', visitedURLs := st.visitedURLs,
            pagesRec := st.pagesRec ++ [p], writes := writes', mainContent := main',
            trace := st.trace ++ [Ev.deq u, Ev.att u, Ev.procEv u] }
        | some hrefs =>
          let found := (hrefs.map (resolveURL cfg.baseURL)).filter
            (fun l => !l.isEmpty && shouldProcessURL cfg.baseURL st.visitedURLs l)
          let enqs := found.filter (fun l => decide (l ∉ processed'))
          { queue := rest ++ enqs, processed := processed', visitedURLs := st.visitedURLs,
            pagesRec := st.pagesRec ++ [p], writes := writes', mainContent := main',
            trace := st.trace ++ [Ev.deq u, Ev.att u, Ev.procEv u] ++ enqs.map Ev.enq }

/-- Run the crawl loop until the queue empties or the fuel runs out. -/
def runCrawl (cfg : CrawlConfig) (world : World) : Nat → CrawlState → CrawlState
  | 0, st => st
  | fuel + 1, st => if st.queue = [] then st else runCrawl cfg world fuel (step cfg world st)

/-- The loop state at entry (src/main.go lines 366–368): seed-only queue,
fresh `processed` map, and the empty `visitedURLs` map made (and never
written) by `NewScraper`. -/
def initState (seed : GoStr) : CrawlState :=
  { queue := [seed], processed := [], visitedURLs := [], pagesRec := [],
    writes := [], mainContent := [], trace := [] }

/-- Corpus-level title: the base URL minus its scheme (src/main.go lines
337–338 and 415–416). -/
def strippedTitle (baseURL : GoStr) : GoStr :=
  goTrimPrefixL (goTrimPrefixL baseURL (gs "https://")) (gs "http://")

/-- Go `strings.Repeat`. -/
def goRepeat (x : GoStr) : Nat → GoStr
  | 0 => []
  | n + 1 => x ++ goRepeat x n

/-- The body `createIndex` writes (src/main.go lines 333–349). -/
def indexContent (baseURL : GoStr) (pages : List GoPage) : GoStr :=
  gs "# Documentation: " ++ strippedTitle baseURL ++ gs "\n\n## Table of Contents\n\n" ++
    (pages.map fun p =>
      goRepeat (gs "  ") (p.level - 1) ++ gs "- [" ++ p.title ++ gs "](" ++ p.filename ++
        gs ") - [source](" ++ p.url ++ gs ")\n").flatten

/-- `Scraper.Scrape` (src/main.go lines 351–423), as the list of file writes
it performs in order; `none` when it returns an error (single-page fetch
failure) or when the fuel does not cover the crawl.  Single-page mode scrapes
only the seed and writes exactly one file — the configured output path in
single-file organization, else the page's own file — and never touches the
frontier or `createIndex`.  Otherwise the loop runs; once the queue drains,
single-file organization writes the combined document under the corpus title
header, and the other modes write the index. -/
def scrapeGo (cfg : CrawlConfig) (world : World) (fuel : Nat) : Option (List (GoStr × GoStr)) :=
  if cfg.singlePage then
    match world cfg.baseURL with
    | FetchResult.fetchFail => none
    | FetchResult.page p _ =>
      if cfg.organization = Organization.SingleFile then some [(cfg.outputPath, p.content)]
      else some [(goJoin cfg.outputDir p.filename, p.content)]
  else
    let fin := runCrawl cfg world fuel (initState cfg.baseURL)
    if fin.queue = [] then
      if cfg.organization = Organization.SingleFile then
        some (fin.writes ++ [(cfg.outputPath,
          gs "# Documentation: " ++ strippedTitle cfg.baseURL ++ gs "\n\n" ++ fin.mainContent)])
      else
        some (fin.writes ++ [(goJoin cfg.outputDir (gs "index.md"),
          indexContent cfg.baseURL fin.pagesRec)])
    else none

/-- URLs of `procEv` events, in order. -/
def procList (tr : List Ev) : List GoStr :=
  tr.filterMap fun e => match e with | Ev.procEv u => some u | _ => none

/-- URLs of `enq` events, in order. -/
def enqList (tr : List Ev) : List GoStr :=
  tr.filterMap fun e => match e with | Ev.enq u => some u | _ => none

/-- URLs of `att` (fetch-attempt) events, in order. -/
def attList (tr : List Ev) : List GoStr :=
  tr.filterMap fun e => match e with | Ev.att u => some u | _ => none

/-- URLs of `deq` events, in order. -/
def deqList (tr : List Ev) : List GoStr :=
  tr.filterMap fun e => match e with | Ev.deq u => some u | _ => none

/-! ## Concrete sites for the counterexamples and witnesses -/

/-- A seed URL. -/
def cexBase : GoStr := gs "https://e.com/docs"

/-- A page; its fields are irrelevant to the crawl-shape counterexamples. -/
def cexPage : GoPage :=
  { title := gs "T", content := gs "c", url := cexBase, filename := gs "t.md", level := 1 }

/-- A crawl configuration for the counterexamples. -/
def cexCfg : CrawlConfig :=
  { baseURL := cexBase, outputPath := gs "out.md", outputDir := gs "out",
    organization := Organization.SingleFile, singlePage := false }

/-- A site whose seed page carries the same in-scope relative link twice. -/
def cexWorldC1 : World := fun u =>
  if u = cexBase then FetchResult.page cexPage (some [gs "a", gs "a"])
  else FetchResult.fetchFail

/-- A site where the seed links `f` (whose fetch always fails) and `b`, and
`b` links `f` again. -/
def cexWorldC2 : World := fun u =>
  if u = cexBase then FetchResult.page cexPage (some [gs "f", gs "b"])
  else if u = cexBase ++ gs "/b" then FetchResult.page cexPage (some [gs "f"])
  else FetchResult.fetchFail

/-- A network on which every fetch fails. -/
def failWorld : World := fun _ => FetchResult.fetchFail

/-- Configuration for the single-page-mode witness. -/
def c10Cfg : CrawlConfig :=
  { baseURL := cexBase, outputPath := gs "out.md", outputDir := gs "out",
    organization := Organization.ByPages, singlePage := true }

/-- A network that always yields `cexPage` with a failing link fetch. -/
def c10World : World := fun _ => FetchResult.page cexPage none

/-- The empty-result substitution stage of `sanitizeFilename`, factored out
for the proofs. -/
def emptyStage (r1 : GoBytes) : GoBytes :=
  if r1.length = 0 then asciiBytes "unnamed" else r1

/-- The 100-byte truncation stage of `sanitizeFilename`, factored out for the
proofs. -/
def truncStage (r2 : GoBytes) : GoBytes :=
  if r2.length > 100 then r2.take 100 else r2

/-- The last two stages of `sanitizeFilename` combined. -/
def lastStages (r1 : GoBytes) : GoBytes := truncStage (emptyStage r1)

/-- The replacement fold of `sanitizeFilename`, factored out for the proofs. -/
def replaceFold (cs : List Nat) (r : GoBytes) : GoBytes :=
  cs.foldl (fun acc c => goReplaceAllByte c 95 acc) r

/-! ## Helper lemmas: bytes and `sanitizeFilename` -/

theorem sanitizeFilename_decomp (name : GoBytes) :
    sanitizeFilename name = lastStages (replaceFold invalidChars (goToLower name)) := rfl

theorem toLowerRune_not_upper (r : Nat) : ¬(65 ≤ toLowerRune r ∧ toLowerRune r ≤ 90) := by
  unfold toLowerRune
  by_cases h : (65 ≤ r && r ≤ 90) = true
  · rw [if_pos h]
    simp only [Bool.and_eq_true, decide_eq_true_eq] at h
    omega
  · rw [if_neg h]
    simp only [Bool.and_eq_true, decide_eq_true_eq, not_and, not_le] at h
    omega

theorem toLowerRune_lt_128 (b : Nat) (h : b < 128) : toLowerRune b < 128 := by
  unfold toLowerRune
  by_cases hb : (65 ≤ b && b ≤ 90) = true
  · rw [if_pos hb]
    simp only [Bool.and_eq_true, decide_eq_true_eq] at hb
    omega
  · rw [if_neg hb]; exact h

theorem toLowerRune_id (b : Nat) (h : ¬(65 ≤ b ∧ b ≤ 90)) : toLowerRune b = b := by
  unfold toLowerRune
  rw [if_neg]
  simp only [Bool.and_eq_true, decide_eq_true_eq]
  exact h

theorem utf8Encode_ascii (r : Nat) (h : r < 128) : utf8Encode r = [r] := by
  unfold utf8Encode; rw [if_pos h]

theorem mem_utf8Encode_cases (r b : Nat) (hb : b ∈ utf8Encode r) : b = r ∨ 128 ≤ b := by
  unfold utf8Encode at hb
  by_cases h1 : r < 128
  · rw [if_pos h1] at hb
    simp only [List.mem_singleton] at hb
    exact Or.inl hb
  · rw [if_neg h1] at hb
    right
    by_cases h2 : r < 2048
    · rw [if_pos h2] at hb
      rcases List.mem_cons.mp hb with h | h
      · omega
      · simp only [List.mem_singleton] at h; omega
    · rw [if_neg h2] at hb
      by_cases h3 : r < 65536
      · rw [if_pos h3] at hb
        rcases List.mem_cons.mp hb with h | h
        · omega
        rcases List.mem_cons.mp h with h | h
        · omega
        · simp only [List.mem_singleton] at h; omega
      · rw [if_neg h3] at hb
        rcases List.mem_cons.mp hb with h | h
        · omega
        rcases List.mem_cons.mp h with h | h
        · omega
        rcases List.mem_cons.mp h with h | h
        · omega
        · simp only [List.mem_singleton] at h; omega

theorem mem_encode_lower_not_upper (r b : Nat) (hb : b ∈ utf8Encode (toLowerRune r)) :
    ¬(65 ≤ b ∧ b ≤ 90) := by
  rcases mem_utf8Encode_cases _ _ hb with h | h
  · exact h ▸ toLowerRune_not_upper r
  · omega

theorem mapToLowerGo_not_upper :
    ∀ (fuel : Nat) (bs : GoBytes), ∀ b ∈ mapToLowerGo fuel bs, ¬(65 ≤ b ∧ b ≤ 90) := by
  intro fuel
  induction fuel with
  | zero => intro bs b hb; simp [mapToLowerGo] at hb
  | succ f ih =>
    intro bs b hb
    match bs with
    | [] => simp [mapToLowerGo] at hb
    | b0 :: rest =>
      rw [mapToLowerGo] at hb
      cases hdec : utf8DecodeHead (b0 :: rest) with
      | some rn =>
        obtain ⟨r, n⟩ := rn
        rw [hdec] at hb
        rcases List.mem_append.mp hb with h | h
        · exact mem_encode_lower_not_upper r b h
        · exact ih _ b h
      | none =>
        rw [hdec] at hb
        rcases List.mem_cons.mp hb with h | h
        · omega
        rcases List.mem_cons.mp h with h | h
        · omega
        rcases List.mem_cons.mp h with h | h
        · omega
        · exact ih rest b h

theorem mapToLowerGo_ascii :
    ∀ (bs : GoBytes) (fuel : Nat), bs.length < fuel → (∀ b ∈ bs, b < 128) →
      mapToLowerGo fuel bs = bs.map toLowerRune := by
  intro bs
  induction bs with
  | nil =>
    intro fuel hf _
    cases fuel with
    | zero => omega
    | succ f => simp [mapToLowerGo]
  | cons b rest ih =>
    intro fuel hf hA
    cases fuel with
    | zero => simp at hf
    | succ f =>
      have hb : b < 128 := hA b (by simp)
      have hdec : utf8DecodeHead (b :: rest) = some (b, 1) := by
        simp only [utf8DecodeHead]
        rw [if_pos hb]
      rw [mapToLowerGo, hdec]
      show utf8Encode (toLowerRune b) ++ mapToLowerGo f ((b :: rest).drop 1) =
        List.map toLowerRune (b :: rest)
      rw [utf8Encode_ascii _ (toLowerRune_lt_128 b hb)]
      have hlen : rest.length < f := by
        simp only [List.length_cons] at hf
        omega
      have hrest := ih f hlen fun x hx => hA x (by simp [hx])
      simp only [List.drop_succ_cons, List.drop_zero]
      rw [hrest]
      simp

theorem goToLower_ascii (bs : GoBytes) (h : ∀ b ∈ bs, b < 128) :
    goToLower bs = bs.map toLowerRune :=
  mapToLowerGo_ascii bs (bs.length + 1) (Nat.lt_succ_self _) h

theorem mem_goReplaceAllByte (old new : Nat) (bs : GoBytes) (b : Nat)
    (hb : b ∈ goReplaceAllByte old new bs) : b = new ∨ (b ∈ bs ∧ b ≠ old) := by
  unfold goReplaceAllByte at hb
  rcases List.mem_map.mp hb with ⟨a, ha, hEq⟩
  by_cases h : a = old
  · rw [if_pos h] at hEq; exact Or.inl hEq.symm
  · rw [if_neg h] at hEq; exact Or.inr (hEq ▸ ⟨ha, h⟩)

theorem map_eq_self_of {α : Type} (f : α → α) :
    ∀ l : List α, (∀ a ∈ l, f a = a) → l.map f = l := by
  intro l
  induction l with
  | nil => intro; rfl
  | cons a l ih =>
    intro h
    simp only [List.map_cons, h a (by simp), ih fun x hx => h x (by simp [hx])]

theorem goReplaceAllByte_id (old new : Nat) (r : GoBytes) (h : old ∉ r) :
    goReplaceAllByte old new r = r := by
  apply map_eq_self_of
  intro a ha
  have hne : a ≠ old := by
    intro e
    subst e
    exact h ha
  rw [if_neg hne]

theorem mem_replaceFold (cs : List Nat) :
    ∀ (r : GoBytes) (b : Nat), b ∈ replaceFold cs r → b = 95 ∨ b ∈ r := by
  induction cs with
  | nil => intro r b hb; exact Or.inr hb
  | cons c cs ih =>
    intro r b hb
    rcases ih (goReplaceAllByte c 95 r) b hb with h | h
    · exact Or.inl h
    · rcases mem_goReplaceAllByte c 95 r b h with h1 | ⟨h1, _⟩
      · exact Or.inl h1
      · exact Or.inr h1

theorem not_mem_replaceFold_of (cs : List Nat) :
    ∀ (r : GoBytes) (x : Nat), x ∉ r → x ≠ 95 → x ∉ replaceFold cs r := by
  induction cs with
  | nil => intro r x hx _ h; exact hx h
  | cons c cs ih =>
    intro r x hx h95
    refine ih (goReplaceAllByte c 95 r) x (fun hmem => ?_) h95
    rcases mem_goReplaceAllByte c 95 r x hmem with h1 | ⟨h1, _⟩
    · exact h95 h1
    · exact hx h1

theorem not_mem_replace_self (c : Nat) (r : GoBytes) (hc : c ≠ 95) :
    c ∉ goReplaceAllByte c 95 r := by
  intro hmem
  rcases mem_goReplaceAllByte c 95 r c hmem with h1 | ⟨_, h2⟩
  · exact hc h1
  · exact h2 rfl

theorem replaceFold_no_invalid (cs : List Nat) :
    95 ∉ cs → ∀ (r : GoBytes), ∀ c ∈ cs, c ∉ replaceFold cs r := by
  induction cs with
  | nil => intro _ r c hc; simp at hc
  | cons c0 cs ih =>
    intro h95 r c hc
    have hc0 : c0 ≠ 95 := fun e => h95 (by simp [e])
    rcases List.mem_cons.mp hc with rfl | hc'
    · exact not_mem_replaceFold_of cs _ c (not_mem_replace_self c r hc0) hc0
    · exact ih (fun h => h95 (by simp [h])) (goReplaceAllByte c0 95 r) c hc'

theorem replaceFold_id (cs : List Nat) :
    ∀ r : GoBytes, (∀ c ∈ cs, c ∉ r) → replaceFold cs r = r := by
  induction cs with
  | nil => intro r _; rfl
  | cons c cs ih =>
    intro r h
    have h1 : goReplaceAllByte c 95 r = r := goReplaceAllByte_id c 95 r (h c (by simp))
    show replaceFold cs (goReplaceAllByte c 95 r) = r
    rw [h1]
    exact ih r fun x hx => h x (by simp [hx])

theorem truncStage_ne_nil (r2 : GoBytes) (h : r2 ≠ []) : truncStage r2 ≠ [] := by
  unfold truncStage
  by_cases h1 : r2.length > 100
  · rw [if_pos h1]
    intro hc
    have := congrArg List.length hc
    simp only [List.length_take, List.length_nil] at this
    omega
  · rw [if_neg h1]; exact h

theorem truncStage_length (r2 : GoBytes) : (truncStage r2).length ≤ 100 := by
  unfold truncStage
  by_cases h1 : r2.length > 100
  · rw [if_pos h1]; simp [List.length_take]
  · rw [if_neg h1]; omega

theorem mem_truncStage (r2 : GoBytes) (b : Nat) (hb : b ∈ truncStage r2) : b ∈ r2 := by
  unfold truncStage at hb
  by_cases h1 : r2.length > 100
  · rw [if_pos h1] at hb; exact List.take_subset _ _ hb
  · rw [if_neg h1] at hb; exact hb

theorem truncStage_id (r2 : GoBytes) (h : r2.length ≤ 100) : truncStage r2 = r2 := by
  unfold truncStage; rw [if_neg (by omega)]

theorem emptyStage_ne_nil (r1 : GoBytes) : emptyStage r1 ≠ [] := by
  unfold emptyStage
  by_cases h0 : r1.length = 0
  · rw [if_pos h0]; decide
  · rw [if_neg h0]
    intro hc
    exact h0 (by simp [hc])

theorem mem_emptyStage (r1 : GoBytes) (b : Nat) (hb : b ∈ emptyStage r1) :
    b ∈ r1 ∨ b ∈ asciiBytes "unnamed" := by
  unfold emptyStage at hb
  by_cases h0 : r1.length = 0
  · rw [if_pos h0] at hb; exact Or.inr hb
  · rw [if_neg h0] at hb; exact Or.inl hb

theorem emptyStage_id (r1 : GoBytes) (h : r1 ≠ []) : emptyStage r1 = r1 := by
  unfold emptyStage
  rw [if_neg fun hc => h (List.length_eq_zero.mp hc)]

theorem lastStages_ne_nil (r1 : GoBytes) : lastStages r1 ≠ [] :=
  truncStage_ne_nil _ (emptyStage_ne_nil r1)

theorem lastStages_length (r1 : GoBytes) : (lastStages r1).length ≤ 100 :=
  truncStage_length _

theorem mem_lastStages (r1 : GoBytes) (b : Nat) (hb : b ∈ lastStages r1) :
    b ∈ r1 ∨ b ∈ asciiBytes "unnamed" :=
  mem_emptyStage r1 b (mem_truncStage _ b hb)

theorem lastStages_id (r1 : GoBytes) (h0 : r1 ≠ []) (h1 : r1.length ≤ 100) :
    lastStages r1 = r1 := by
  unfold lastStages
  rw [emptyStage_id r1 h0, truncStage_id r1 h1]

theorem sanitizeFilename_ne_nil (name : GoBytes) : sanitizeFilename name ≠ [] := by
  rw [sanitizeFilename_decomp]; exact lastStages_ne_nil _

theorem sanitizeFilename_length_le (name : GoBytes) : (sanitizeFilename name).length ≤ 100 := by
  rw [sanitizeFilename_decomp]; exact lastStages_length _

theorem sanitizeFilename_not_upper (name : GoBytes) :
    ∀ b ∈ sanitizeFilename name, ¬(65 ≤ b ∧ b ≤ 90) := by
  intro b hb
  rw [sanitizeFilename_decomp] at hb
  rcases mem_lastStages _ b hb with h | h
  · rcases mem_replaceFold invalidChars _ b h with h1 | h1
    · omega
    · exact mapToLowerGo_not_upper _ _ b h1
  · have hun : ∀ x ∈ asciiBytes "unnamed", ¬(65 ≤ x ∧ x ≤ 90) := by decide
    exact hun b h

theorem sanitizeFilename_no_invalid (name : GoBytes) :
    ∀ c ∈ invalidChars, c ∉ sanitizeFilename name := by
  intro c hc hmem
  rw [sanitizeFilename_decomp] at hmem
  rcases mem_lastStages _ c hmem with h | h
  · exact replaceFold_no_invalid invalidChars (by decide) _ c hc h
  · have hun : ∀ x ∈ invalidChars, x ∉ asciiBytes "unnamed" := by decide
    exact hun c hc h

theorem sanitizeFilename_ascii (name : GoBytes) (hA : ∀ b ∈ name, b < 128) :
    ∀ b ∈ sanitizeFilename name, b < 128 := by
  intro b hb
  rw [sanitizeFilename_decomp] at hb
  rcases mem_lastStages _ b hb with h | h
  · rcases mem_replaceFold invalidChars _ b h with h1 | h1
    · omega
    · rw [goToLower_ascii name hA] at h1
      rcases List.mem_map.mp h1 with ⟨a, ha, rfl⟩
      exact toLowerRune_lt_128 a (hA a ha)
  · have hun : ∀ x ∈ asciiBytes "unnamed", x < 128 := by decide
    exact hun b h

theorem sanitizeFilename_idem_ascii (name : GoBytes) (hA : ∀ b ∈ name, b < 128) :
    sanitizeFilename (sanitizeFilename name) = sanitizeFilename name := by
  have hout := sanitizeFilename_ascii name hA
  have hupper := sanitizeFilename_not_upper name
  have hinv := sanitizeFilename_no_invalid name
  have hne := sanitizeFilename_ne_nil name
  have hlen := sanitizeFilename_length_le name
  rw [sanitizeFilename_decomp (sanitizeFilename name)]
  rw [goToLower_ascii _ hout]
  rw [map_eq_self_of toLowerRune _ fun b hb => toLowerRune_id b (hupper b hb)]
  rw [replaceFold_id invalidChars _ fun c hc => hinv c hc]
  exact lastStages_id _ hne hlen

/-! ## Helper lemmas: rune-level strings -/

theorem isPrefixOf_append_self : ∀ p x : GoStr, p.isPrefixOf (p ++ x) = true := by
  intro p x
  rw [List.isPrefixOf_iff_prefix]
  exact List.prefix_append p x

theorem goTrimPrefixL_append (pre x : GoStr) : goTrimPrefixL (pre ++ x) pre = x := by
  unfold goTrimPrefixL
  rw [if_pos (isPrefixOf_append_self pre x)]
  exact List.drop_left pre x

theorem goTrimPrefixL_self (p : GoStr) : goTrimPrefixL p p = [] := by
  have h := goTrimPrefixL_append p []
  simpa using h

theorem splitGo_ne_nil (sep : GoStr) :
    ∀ (fuel : Nat) (acc s : GoStr), splitGo sep fuel acc s ≠ [] := by
  intro fuel
  induction fuel with
  | zero => intro acc s; simp [splitGo]
  | succ f ih =>
    intro acc s
    cases s with
    | nil => simp [splitGo]
    | cons c cs =>
      rw [splitGo]
      split
      · simp
      · exact ih _ _

theorem splitGo_fuel (sep : GoStr) (hsep : sep ≠ []) :
    ∀ (f1 f2 : Nat) (acc s : GoStr), s.length < f1 → s.length < f2 →
      splitGo sep f1 acc s = splitGo sep f2 acc s := by
  intro f1
  induction f1 with
  | zero => intro f2 acc s h1 _; omega
  | succ f ih =>
    intro f2 acc s h1 h2
    cases f2 with
    | zero => omega
    | succ g =>
      cases s with
      | nil => rw [splitGo, splitGo]
      | cons c cs =>
        have hs1 : 1 ≤ sep.length := List.length_pos.mpr hsep
        rw [splitGo, splitGo]
        by_cases h : sep.isPrefixOf (c :: cs) = true
        · rw [if_pos h, if_pos h]
          have hdl : ((c :: cs).drop sep.length).length < f := by
            simp only [List.length_drop, List.length_cons] at *
            omega
          have hdg : ((c :: cs).drop sep.length).length < g := by
            simp only [List.length_drop, List.length_cons] at *
            omega
          rw [ih g [] _ hdl hdg]
        · rw [if_neg h, if_neg h]
          refine ih g (c :: acc) cs ?_ ?_
          · simp only [List.length_cons] at h1; omega
          · simp only [List.length_cons] at h2; omega

theorem splitGo_no_occur (sep : GoStr) :
    ∀ (s acc : GoStr) (fuel : Nat), s.length < fuel → containsSub s sep = false →
      splitGo sep fuel acc s = [acc.reverse ++ s] := by
  intro s
  induction s with
  | nil =>
    intro acc fuel hf _
    cases fuel with
    | zero => omega
    | succ f => rw [splitGo]; simp
  | cons c cs ih =>
    intro acc fuel hf hc
    cases fuel with
    | zero => simp at hf
    | succ f =>
      rw [containsSub] at hc
      simp only [Bool.or_eq_false_iff] at hc
      obtain ⟨hp, hcs⟩ := hc
      rw [splitGo, if_neg (by simp [hp])]
      rw [ih (c :: acc) f (by simp only [List.length_cons] at hf; omega) hcs]
      simp

theorem splitGo_sep_head (sep : GoStr) (hsep : sep ≠ []) (b acc : GoStr) (fuel : Nat)
    (hf : (sep ++ b).length < fuel) :
    splitGo sep fuel acc (sep ++ b) = acc.reverse :: splitGo sep (b.length + 1) [] b := by
  cases fuel with
  | zero => simp at hf
  | succ f =>
    cases sep with
    | nil => exact absurd rfl hsep
    | cons s0 st =>
      have hpre : (s0 :: st).isPrefixOf (s0 :: (st ++ b)) = true := by
        rw [← List.cons_append]
        exact isPrefixOf_append_self _ _
      rw [List.cons_append, splitGo, if_pos hpre]
      have hdrop : (s0 :: (st ++ b)).drop (s0 :: st).length = b := by
        rw [← List.cons_append]
        exact List.drop_left (s0 :: st) b
      rw [hdrop]
      have hb1 : b.length < f := by
        simp only [List.length_append, List.length_cons] at hf
        omega
      rw [splitGo_fuel (s0 :: st) hsep f (b.length + 1) [] b hb1 (Nat.lt_succ_self _)]

theorem splitGo_single (c : Char) :
    ∀ (a b acc : GoStr) (fuel : Nat), c ∉ a → (a ++ c :: b).length < fuel →
      splitGo [c] fuel acc (a ++ c :: b) =
        (acc.reverse ++ a) :: splitGo [c] (b.length + 1) [] b := by
  intro a
  induction a with
  | nil =>
    intro b acc fuel _ hf
    have hf2 : (([c] : GoStr) ++ b).length < fuel := by simpa using hf
    have h := splitGo_sep_head [c] (by simp) b acc fuel hf2
    simpa using h
  | cons x a2 ih =>
    intro b acc fuel hcx hf
    cases fuel with
    | zero => simp at hf
    | succ f =>
      have hcne : c ≠ x := by
        intro e
        exact hcx (by simp [e])
      have hxc : ¬(([c] : GoStr).isPrefixOf (x :: (a2 ++ c :: b)) = true) := by
        simp [List.isPrefixOf, hcne]
      rw [List.cons_append, splitGo, if_neg hxc]
      rw [ih b (x :: acc) f (fun h => hcx (by simp [h])) (by
        simp only [List.length_cons, List.length_append] at hf ⊢
        omega)]
      simp

theorem containsSub_sep_head (sep b : GoStr) (hsep : sep ≠ []) :
    containsSub (sep ++ b) sep = true := by
  cases sep with
  | nil => exact absurd rfl hsep
  | cons s0 st =>
    have hpre : (s0 :: st).isPrefixOf (s0 :: (st ++ b)) = true := by
      rw [← List.cons_append]
      exact isPrefixOf_append_self _ _
    rw [List.cons_append, containsSub, hpre]
    rfl

theorem goSplit_parts (sep rest : GoStr) (hsep : sep ≠ []) (hno : containsSub rest sep = false) :
    goSplit (sep ++ rest) sep = [[], rest] := by
  unfold goSplit
  rw [splitGo_sep_head sep hsep rest [] _ (Nat.lt_succ_self _)]
  rw [splitGo_no_occur sep rest [] (rest.length + 1) (Nat.lt_succ_self _) hno]
  simp

/-! ## Claim C4 -/

/-- Claim C4 (corrected): for every input byte string, `sanitizeFilename`'s
output is non-empty, at most 100 bytes (hence at most 100 characters),
contains no ASCII uppercase letter and none of the reserved characters; it is
idempotent for ASCII inputs, but — contrary to the claim — not for all
inputs, because the 100-byte truncation can cut a multi-byte UTF-8 character
and the next lower-casing pass rewrites the dangling byte to U+FFFD (see the
counterexample). -/
theorem claim_C4_amended (name : GoBytes) :
    sanitizeFilename name ≠ [] ∧
    (sanitizeFilename name).length ≤ 100 ∧
    (∀ b ∈ sanitizeFilename name, ¬(65 ≤ b ∧ b ≤ 90)) ∧
    (∀ c ∈ invalidChars, c ∉ sanitizeFilename name) ∧
    ((∀ b ∈ name, b < 128) → sanitizeFilename (sanitizeFilename name) = sanitizeFilename name) :=
  ⟨sanitizeFilename_ne_nil name, sanitizeFilename_length_le name,
    sanitizeFilename_not_upper name, sanitizeFilename_no_invalid name,
    sanitizeFilename_idem_ascii name⟩

/-- Witness for claim C4's theorem at the concrete ASCII input
`"My File.TXT"`. -/
theorem claim_C4_witness :
    (∀ b ∈ asciiBytes "My File.TXT", b < 128) ∧
    sanitizeFilename (sanitizeFilename (asciiBytes "My File.TXT")) =
      sanitizeFilename (asciiBytes "My File.TXT") :=
  ⟨by decide, (claim_C4_amended (asciiBytes "My File.TXT")).2.2.2.2 (by decide)⟩

set_option maxRecDepth 8192 in
/-- Claim C4 counterexample: on 34 euro signs (102 bytes of valid UTF-8, no
reserved characters, already lower-case) `sanitizeFilename` is *not*
idempotent — truncation keeps 33 euro signs plus the lone byte `E2`, and the
second application turns that byte into U+FFFD. -/
theorem claim_C4_counterexample :
    sanitizeFilename (sanitizeFilename (euroRepeat 34)) ≠ sanitizeFilename (euroRepeat 34) := by
  decide

/-! ## Claim C5 -/

set_option maxRecDepth 2048 in
/-- Claim C5 counterexample: `mailto:x@y.z` carries a scheme but is *not*
returned unchanged (it lands in the final join branch), and `httpfoo` carries
no scheme but *is* returned unchanged — the code tests for the literal prefix
`"http"`, not for a scheme. -/
theorem claim_C5_counterexample :
    specHasScheme (gs "mailto:x@y.z") = true ∧
    resolveURL cexBase (gs "mailto:x@y.z") = cexBase ++ gs "/" ++ gs "mailto:x@y.z" ∧
    resolveURL cexBase (gs "mailto:x@y.z") ≠ gs "mailto:x@y.z" ∧
    specHasScheme (gs "httpfoo") = false ∧
    resolveURL cexBase (gs "httpfoo") = gs "httpfoo" := by
  refine ⟨by decide, by decide, by decide, by decide, by decide⟩

/-- Claim C5 (corrected): `resolveURL` returns `href` unchanged when `href`
starts with the literal character prefix `"http"` (not: when it carries a
scheme — `mailto:`/`ftp://` references fall through to the join branch, and
any string beginning `http` is returned untouched); otherwise, `//`-prefixed
hrefs get the base URL's scheme and a `:` prepended, `/`-prefixed hrefs get
the domain prefix (`scheme://host`) prepended, and everything else is the
base URL, a single `/`, and `href`. -/
theorem claim_C5_amended (base href : GoStr) :
    ((gs "http").isPrefixOf href = true → resolveURL base href = href) ∧
    ((gs "http").isPrefixOf href = false → (gs "//").isPrefixOf href = true →
      resolveURL base href = (parseURL base).scheme ++ gs ":" ++ href) ∧
    ((gs "http").isPrefixOf href = false → (gs "//").isPrefixOf href = false →
      (gs "/").isPrefixOf href = true →
      resolveURL base href = domainPrefixOf base ++ href) ∧
    ((gs "http").isPrefixOf href = false → (gs "//").isPrefixOf href = false →
      (gs "/").isPrefixOf href = false →
      resolveURL base href = base ++ gs "/" ++ href) := by
  refine ⟨?_, ?_, ?_, ?_⟩
  · intro h1
    unfold resolveURL
    rw [if_pos h1]
  · intro h1 h2
    unfold resolveURL
    rw [if_neg (by simp [h1]), if_pos h2]
  · intro h1 h2 h3
    unfold resolveURL
    rw [if_neg (by simp [h1]), if_neg (by simp [h2]), if_pos h3]
  · intro h1 h2 h3
    unfold resolveURL
    rw [if_neg (by simp [h1]), if_neg (by simp [h2]), if_neg (by simp [h3])]

/-- Witness for claim C5's theorem: the seed-relative join branch at a
concrete input. -/
theorem claim_C5_witness :
    (gs "http").isPrefixOf (gs "docs/a") = false ∧
    (gs "//").isPrefixOf (gs "docs/a") = false ∧
    (gs "/").isPrefixOf (gs "docs/a") = false ∧
    resolveURL cexBase (gs "docs/a") = cexBase ++ gs "/" ++ gs "docs/a" :=
  ⟨by decide, by decide, by decide,
    (claim_C5_amended cexBase (gs "docs/a")).2.2.2 (by decide) (by decide) (by decide)⟩

/-! ## Claim C6 -/

/-- Claim C6 (confirmed): `shouldProcessURL` returns `false` for a URL whose
host differs from the base host, `false` for a URL in the visited set,
`false` when the URL's path relative to the base path contains a denylisted
infix, and `true` otherwise. -/
theorem claim_C6 (base : GoStr) (visited : List GoStr) (u : GoStr) :
    ((parseURL u).host ≠ (parseURL base).host → shouldProcessURL base visited u = false) ∧
    (u ∈ visited → shouldProcessURL base visited u = false) ∧
    ((∃ ig ∈ ignorePaths, containsSub (relPathOf base u) ig = true) →
      shouldProcessURL base visited u = false) ∧
    ((parseURL u).host = (parseURL base).host → u ∉ visited →
      (∀ ig ∈ ignorePaths, containsSub (relPathOf base u) ig = false) →
      shouldProcessURL base visited u = true) := by
  refine ⟨?_, ?_, ?_, ?_⟩
  · intro h
    unfold shouldProcessURL
    rw [if_pos h]
  · intro h
    unfold shouldProcessURL
    by_cases h1 : (parseURL u).host ≠ (parseURL base).host
    · rw [if_pos h1]
    · rw [if_neg h1, if_pos h]
  · rintro ⟨ig, hig, hc⟩
    unfold shouldProcessURL
    by_cases h1 : (parseURL u).host ≠ (parseURL base).host
    · rw [if_pos h1]
    · rw [if_neg h1]
      by_cases h2 : u ∈ visited
      · rw [if_pos h2]
      · rw [if_neg h2, if_pos (List.any_eq_true.mpr ⟨ig, hig, hc⟩)]
  · intro h1 h2 h3
    unfold shouldProcessURL
    rw [if_neg (by simp [h1]), if_neg h2, if_neg ?_]
    intro hc
    rcases List.any_eq_true.mp hc with ⟨ig, hig, hcc⟩
    rw [h3 ig hig] at hcc
    exact Bool.false_ne_true hcc

set_option maxRecDepth 2048 in
/-- Witness for claim C6's theorem: an in-scope URL accepted at a concrete
base, empty visited set and concrete URL. -/
theorem claim_C6_witness :
    (parseURL (gs "https://e.com/docs/guide")).host = (parseURL cexBase).host ∧
    (gs "https://e.com/docs/guide") ∉ ([] : List GoStr) ∧
    (∀ ig ∈ ignorePaths,
      containsSub (relPathOf cexBase (gs "https://e.com/docs/guide")) ig = false) ∧
    shouldProcessURL cexBase [] (gs "https://e.com/docs/guide") = true :=
  ⟨by decide, by decide, by decide,
    (claim_C6 cexBase [] (gs "https://e.com/docs/guide")).2.2.2
      (by decide) (by decide) (by decide)⟩

/-! ## Claim C8 -/

/-- Claim C8 (confirmed): the depth `level` is the number of `/`-separated
components of the URL once the seed prefix is stripped and `/` trimmed from
both ends (at least 1, the empty relative path giving exactly 1); in
particular `base/a/b` relative to `base` has level 2 and `base` itself has
level 1. -/
theorem claim_C8 :
    (∀ base url : GoStr, pageLevel base url =
      max 1 (goSplit (goTrimCut (goTrimPrefixL url base) '/') (gs "/")).length) ∧
    (∀ base : GoStr, pageLevel base (base ++ gs "/a/b") = 2) ∧
    (∀ base : GoStr, pageLevel base base = 1) := by
  refine ⟨?_, ?_, ?_⟩
  · intro base url
    unfold pageLevel
    have hpos : 0 < (goSplit (goTrimCut (goTrimPrefixL url base) '/') (gs "/")).length :=
      List.length_pos.mpr (splitGo_ne_nil _ _ _ _)
    omega
  · intro base
    unfold pageLevel
    rw [goTrimPrefixL_append]
    decide
  · intro base
    unfold pageLevel
    rw [goTrimPrefixL_self]
    decide

/-! ## Claim C9 -/

theorem step_visited (cfg : CrawlConfig) (world : World) (st : CrawlState) :
    (step cfg world st).visitedURLs = st.visitedURLs := by
  obtain ⟨q, proc, vis, pages, wr, mc, tr⟩ := st
  cases q with
  | nil => rfl
  | cons u rest =>
    simp only [step]
    by_cases hp : u ∈ proc
    · rw [if_pos hp]
    · rw [if_neg hp]
      cases world u with
      | fetchFail => rfl
      | page p lr =>
        cases lr with
        | none => rfl
        | some hrefs => rfl

theorem runCrawl_visited (cfg : CrawlConfig) (world : World) :
    ∀ (fuel : Nat) (st : CrawlState),
      (runCrawl cfg world fuel st).visitedURLs = st.visitedURLs := by
  intro fuel
  induction fuel with
  | zero => intro st; rfl
  | succ f ih =>
    intro st
    rw [runCrawl]
    by_cases h : st.queue = []
    · rw [if_pos h]
    · rw [if_neg h, ih, step_visited]

/-- Claim C9 (confirmed): the crawl loop never writes to the scraper's
`visitedURLs` map — any run from the `NewScraper` state keeps it empty — and
with an empty visited set the visited-URL test inside `shouldProcessURL`
never rejects anything: the function coincides with its copy that has the
test removed.  Deduplication rests entirely on the loop-local `processed`
map. -/
theorem claim_C9 :
    (∀ (cfg : CrawlConfig) (world : World) (fuel : Nat) (seed : GoStr),
      (runCrawl cfg world fuel (initState seed)).visitedURLs = []) ∧
    (∀ base u : GoStr, shouldProcessURL base [] u = shouldProcessNoVisited base u) := by
  constructor
  · intro cfg world fuel seed
    rw [runCrawl_visited]
    rfl
  · intro base u
    unfold shouldProcessURL shouldProcessNoVisited
    simp

/-! ## Claim C7 -/

theorem detectLang_none (cls : GoStr) (h1 : containsSub cls (gs "language-") = false)
    (h2 : containsSub cls (gs "lang-") = false) (h3 : containsSub cls (gs "brush:") = false) :
    detectLang cls = [] := by
  unfold detectLang langClasses
  rw [detectLangGo, if_neg (by simp [h1])]
  rw [detectLangGo, if_neg (by simp [h2])]
  rw [detectLangGo, if_neg (by simp [h3])]
  rfl

theorem detectLang_tagged (l r : GoStr)
    (hno : containsSub (l ++ gs " " ++ r) (gs "language-") = false) (hsp : ' ' ∉ l) :
    detectLang (gs "language-" ++ (l ++ gs " " ++ r)) = l := by
  have hcont : containsSub (gs "language-" ++ (l ++ gs " " ++ r)) (gs "language-") = true :=
    containsSub_sep_head _ _ (by decide)
  have hparts : goSplit (gs "language-" ++ (l ++ gs " " ++ r)) (gs "language-")
      = [[], l ++ gs " " ++ r] :=
    goSplit_parts _ _ (by decide) hno
  have heq : l ++ gs " " ++ r = l ++ ' ' :: r := by
    rw [List.append_assoc]
    rfl
  have hfirst : firstSpaceWord (l ++ gs " " ++ r) = l := by
    unfold firstSpaceWord goSplit
    rw [heq, show (gs " " : GoStr) = [' '] from rfl]
    rw [splitGo_single ' ' l r [] _ hsp (Nat.lt_succ_self _)]
    simp
  unfold detectLang langClasses
  rw [detectLangGo, if_pos hcont, hparts]
  simpa using hfirst

/-- Claim C7 (corrected): with no recognized prefix in the class attribute the
fence is untagged; with the class `"language-" ++ l ++ " " ++ r` (the prefix
not occurring again and `l` space-free — e.g. `language-python foo`) the tag
is `l`.  In general the tag is the second piece of `strings.Split` on the
prefix cut at the first space — i.e. the text up to the next *occurrence of
the prefix* or space, not "up to the next whitespace" as claimed (see the
counterexample). -/
theorem claim_C7_amended :
    (∀ cls code : GoStr, containsSub cls (gs "language-") = false →
      containsSub cls (gs "lang-") = false → containsSub cls (gs "brush:") = false →
      goTrimSpace code ≠ [] →
      renderPre (some cls) code = gs "```\n" ++ goTrimSpace code ++ gs "\n```\n\n") ∧
    (∀ l r code : GoStr, containsSub (l ++ gs " " ++ r) (gs "language-") = false →
      ' ' ∉ l → l ≠ [] → goTrimSpace code ≠ [] →
      renderPre (some (gs "language-" ++ (l ++ gs " " ++ r))) code =
        gs "```" ++ l ++ gs "\n" ++ goTrimSpace code ++ gs "\n```\n\n") := by
  constructor
  · intro cls code h1 h2 h3 hcode
    simp only [renderPre]
    rw [detectLang_none cls h1 h2 h3, if_neg hcode,
      if_neg (show ¬(([] : GoStr) ≠ []) by simp)]
  · intro l r code hno hsp hl hcode
    simp only [renderPre]
    rw [detectLang_tagged l r hno hsp, if_neg hcode, if_pos hl]

/-- Witness for claim C7's theorem: the claim's own example, class
`language-python foo`, yields a fence opening with three backticks and
`python`. -/
theorem claim_C7_witness :
    containsSub (gs "python" ++ gs " " ++ gs "foo") (gs "language-") = false ∧
    ' ' ∉ gs "python" ∧ (gs "python" : GoStr) ≠ [] ∧ goTrimSpace (gs "x") ≠ [] ∧
    renderPre (some (gs "language-" ++ (gs "python" ++ gs " " ++ gs "foo"))) (gs "x") =
      gs "```" ++ gs "python" ++ gs "\n" ++ goTrimSpace (gs "x") ++ gs "\n```\n\n" :=
  ⟨by decide, by decide, by decide, by decide,
    claim_C7_amended.2 (gs "python") (gs "foo") (gs "x")
      (by decide) (by decide) (by decide) (by decide)⟩

/-- Claim C7 counterexample: for the class `language-xlanguage-y` the claim's
rule ("substring following the first matching prefix up to the next
whitespace") gives `xlanguage-y`, but the code's `strings.Split` cuts at the
second occurrence of the prefix and yields `x`. -/
theorem claim_C7_counterexample :
    detectLang (gs "language-xlanguage-y") = gs "x" ∧
    specLangTag (gs "language-xlanguage-y") = gs "xlanguage-y" ∧
    renderPre (some (gs "language-xlanguage-y")) (gs "z") = gs "```x\nz\n```\n\n" ∧
    (gs "x" : GoStr) ≠ gs "xlanguage-y" :=
  ⟨by decide, by decide, by decide, by decide⟩

/-! ## Helper lemmas: crawl traces -/

theorem procList_append (t1 t2 : List Ev) :
    procList (t1 ++ t2) = procList t1 ++ procList t2 := List.filterMap_append _ _ _

theorem enqList_append (t1 t2 : List Ev) :
    enqList (t1 ++ t2) = enqList t1 ++ enqList t2 := List.filterMap_append _ _ _

theorem attList_append (t1 t2 : List Ev) :
    attList (t1 ++ t2) = attList t1 ++ attList t2 := List.filterMap_append _ _ _

theorem procList_skip (u : GoStr) : procList [Ev.deq u] = [] := rfl

theorem procList_fail (u : GoStr) : procList [Ev.deq u, Ev.att u, Ev.failEv u] = [] := rfl

theorem procList_proc (u : GoStr) : procList [Ev.deq u, Ev.att u, Ev.procEv u] = [u] := rfl

theorem attList_skip (u : GoStr) : attList [Ev.deq u] = [] := rfl

theorem attList_fail (u : GoStr) : attList [Ev.deq u, Ev.att u, Ev.failEv u] = [u] := rfl

theorem attList_proc (u : GoStr) : attList [Ev.deq u, Ev.att u, Ev.procEv u] = [u] := rfl

theorem enqList_skip (u : GoStr) : enqList [Ev.deq u] = [] := rfl

theorem enqList_fail (u : GoStr) : enqList [Ev.deq u, Ev.att u, Ev.failEv u] = [] := rfl

theorem enqList_proc (u : GoStr) : enqList [Ev.deq u, Ev.att u, Ev.procEv u] = [] := rfl

theorem procList_map_enq (l : List GoStr) : procList (l.map Ev.enq) = [] := by
  simp [procList, List.filterMap_cons]

theorem attList_map_enq (l : List GoStr) : attList (l.map Ev.enq) = [] := by
  simp [attList, List.filterMap_cons]

theorem enqList_map_enq (l : List GoStr) : enqList (l.map Ev.enq) = l := by
  induction l with
  | nil => rfl
  | cons a l ih => simpa [enqList, List.filterMap_cons] using ih

theorem nodup_append_singleton {α : Type} (l : List α) (a : α)
    (h1 : l.Nodup) (h2 : a ∉ l) : (l ++ [a]).Nodup := by
  simp [List.nodup_append, h1, h2]

theorem count_cons_eq {α : Type} [DecidableEq α] (v u : α) (rest : List α) :
    (v :: rest).count u = rest.count u + (if v = u then 1 else 0) := by
  by_cases h : v = u <;> simp [List.count_cons, h]

/-! ## Claim C1 -/

theorem step_inv (cfg : CrawlConfig) (world : World) (st : CrawlState)
    (h : st.processed.Nodup ∧ procList st.trace = st.processed) :
    (step cfg world st).processed.Nodup ∧
      procList (step cfg world st).trace = (step cfg world st).processed := by
  obtain ⟨hnd, hpl⟩ := h
  obtain ⟨q, proc, vis, pages, wr, mc, tr⟩ := st
  simp only at hnd hpl
  cases q with
  | nil => exact ⟨hnd, hpl⟩
  | cons u rest =>
    simp only [step]
    by_cases hp : u ∈ proc
    · rw [if_pos hp]
      refine ⟨hnd, ?_⟩
      simp only [procList_append, procList_skip, List.append_nil]
      exact hpl
    · rw [if_neg hp]
      cases world u with
      | fetchFail =>
        refine ⟨hnd, ?_⟩
        simp only [procList_append, procList_fail, List.append_nil]
        exact hpl
      | page p lr =>
        cases lr with
        | none =>
          refine ⟨nodup_append_singleton proc u hnd hp, ?_⟩
          simp only [procList_append, procList_proc]
          rw [hpl]
        | some hrefs =>
          refine ⟨nodup_append_singleton proc u hnd hp, ?_⟩
          simp only [procList_append, procList_proc, procList_map_enq, List.append_nil]
          rw [hpl]

theorem runCrawl_inv (cfg : CrawlConfig) (world : World) :
    ∀ (fuel : Nat) (st : CrawlState),
      st.processed.Nodup ∧ procList st.trace = st.processed →
      (runCrawl cfg world fuel st).processed.Nodup ∧
        procList (runCrawl cfg world fuel st).trace = (runCrawl cfg world fuel st).processed := by
  intro fuel
  induction fuel with
  | zero => intro st h; exact h
  | succ f ih =>
    intro st h
    rw [runCrawl]
    by_cases hq : st.queue = []
    · rw [if_pos hq]; exact h
    · rw [if_neg hq]
      exact ih (step cfg world st) (step_inv cfg world st h)

/-- Claim C1 (corrected): no URL is ever *processed* twice — the `processed`
(visited) set is duplicate-free and lists exactly the URLs with a processing
event — and its final size equals the number of distinct URLs that were
dequeued and successfully scraped.  The original claim fails on two points
(see the counterexample): a URL can be *enqueued* twice (the enqueue filter
consults only `processed`, so a link discovered again before being processed
is appended again), and a URL whose fetch fails is dequeued without entering
the visited set, so `|visited|` can be smaller than the number of distinct
URLs ever dequeued. -/
theorem claim_C1_amended (cfg : CrawlConfig) (world : World) (fuel : Nat) (seed : GoStr) :
    (runCrawl cfg world fuel (initState seed)).processed.Nodup ∧
    procList (runCrawl cfg world fuel (initState seed)).trace =
      (runCrawl cfg world fuel (initState seed)).processed ∧
    (runCrawl cfg world fuel (initState seed)).processed.length =
      ((procList (runCrawl cfg world fuel (initState seed)).trace).dedup).length := by
  have h := runCrawl_inv cfg world fuel (initState seed) ⟨List.nodup_nil, rfl⟩
  refine ⟨h.1, h.2, ?_⟩
  rw [h.2, List.dedup_eq_self.mpr h.1]

set_option maxRecDepth 8192 in
/-- Claim C1 counterexample: on a seed page that carries the same in-scope
link `a` twice (and `a`'s fetch failing), the resolved URL is enqueued twice,
and at the end `|visited| = 1` while two distinct URLs were dequeued. -/
theorem claim_C1_counterexample :
    (enqList (runCrawl cexCfg cexWorldC1 10 (initState cexBase)).trace).count
        (cexBase ++ gs "/a") = 2 ∧
    (runCrawl cexCfg cexWorldC1 10 (initState cexBase)).processed.length = 1 ∧
    ((deqList (runCrawl cexCfg cexWorldC1 10 (initState cexBase)).trace).dedup).length = 2 :=
  ⟨by decide, by decide, by decide⟩

/-! ## Claim C2 -/

theorem step_count (cfg : CrawlConfig) (world : World) (st : CrawlState) (u : GoStr) :
    (attList (step cfg world st).trace).count u + (step cfg world st).queue.count u
        + (enqList st.trace).count u ≤
      (attList st.trace).count u + st.queue.count u
        + (enqList (step cfg world st).trace).count u := by
  obtain ⟨q, proc, vis, pages, wr, mc, tr⟩ := st
  cases q with
  | nil => simp only [step]; omega
  | cons v rest =>
    simp only [step]
    by_cases hp : v ∈ proc
    · rw [if_pos hp]
      simp only [attList_append, attList_skip, enqList_append, enqList_skip, List.append_nil]
      by_cases hvu : v = u
      all_goals simp [List.count_append, List.count_cons, List.count_nil, hvu]
    · rw [if_neg hp]
      cases world v with
      | fetchFail =>
        simp only [attList_append, attList_fail, enqList_append, enqList_fail, List.append_nil]
        by_cases hvu : v = u
        all_goals simp [List.count_append, List.count_cons, List.count_nil, hvu]
        all_goals omega
      | page p lr =>
        cases lr with
        | none =>
          simp only [attList_append, attList_proc, enqList_append, enqList_proc,
            List.append_nil]
          by_cases hvu : v = u
          all_goals simp [List.count_append, List.count_cons, List.count_nil, hvu]
          all_goals omega
        | some hrefs =>
          simp only [attList_append, attList_proc, attList_map_enq, enqList_append,
            enqList_proc, enqList_map_enq, List.append_nil, List.nil_append]
          by_cases hvu : v = u
          all_goals simp [List.count_append, List.count_cons, List.count_nil, hvu]
          all_goals omega

theorem runCrawl_count (cfg : CrawlConfig) (world : World) (u : GoStr) :
    ∀ (fuel : Nat) (st : CrawlState),
      (attList (runCrawl cfg world fuel st).trace).count u
          + (runCrawl cfg world fuel st).queue.count u + (enqList st.trace).count u ≤
        (attList st.trace).count u + st.queue.count u
          + (enqList (runCrawl cfg world fuel st).trace).count u := by
  intro fuel
  induction fuel with
  | zero => intro st; simp only [runCrawl]; omega
  | succ f ih =>
    intro st
    rw [runCrawl]
    by_cases h : st.queue = []
    · rw [if_pos h]
    · rw [if_neg h]
      have h1 := ih (step cfg world st)
      have h2 := step_count cfg world st u
      omega

/-- Claim C2 (corrected): when `scrapePage` fails the URL is indeed abandoned
— the loop continues with the remaining frontier and nothing is marked
processed (first conjunct gives the exact step equation) — and the URL is
never retried from the queue entry it was dequeued from: every fetch attempt
of a URL consumes a distinct enqueue of it (second conjunct: attempts of `u`
never exceed its initial queue occurrences plus its enqueue events).  But the
original "never fetched again within the same run" is false: a failed URL is
not in `processed`, so when a later page links it again it is re-enqueued and
fetched again (see the counterexample). -/
theorem claim_C2_amended :
    (∀ (cfg : CrawlConfig) (world : World) (u : GoStr) (rest : List GoStr) (st : CrawlState),
      st.queue = u :: rest → u ∉ st.processed → world u = FetchResult.fetchFail →
      step cfg world st = { st with
                            queue := rest,
                            trace := st.trace ++ [Ev.deq u, Ev.att u, Ev.failEv u] }) ∧
    (∀ (cfg : CrawlConfig) (world : World) (fuel : Nat) (seed u : GoStr),
      (attList (runCrawl cfg world fuel (initState seed)).trace).count u ≤
        ([seed] : List GoStr).count u +
          (enqList (runCrawl cfg world fuel (initState seed)).trace).count u) := by
  constructor
  · intro cfg world u rest st hq hp hw
    obtain ⟨q, proc, vis, pages, wr, mc, tr⟩ := st
    simp only at hq hp
    subst hq
    simp only [step, if_neg hp, hw]
  · intro cfg world fuel seed u
    have h := runCrawl_count cfg world u fuel (initState seed)
    have ht : (initState seed).trace = ([] : List Ev) := rfl
    have hq : (initState seed).queue = [seed] := rfl
    rw [ht, hq] at h
    have e1 : (enqList ([] : List Ev)).count u = 0 := rfl
    have e2 : (attList ([] : List Ev)).count u = 0 := rfl
    rw [e1, e2] at h
    omega

/-- Witness for claim C2's theorem: the failure step at a concrete state —
seed `f`, every fetch failing. -/
theorem claim_C2_witness :
    step cexCfg failWorld (initState (gs "f")) =
      { initState (gs "f") with
        queue := [],
        trace := (initState (gs "f")).trace ++
          [Ev.deq (gs "f"), Ev.att (gs "f"), Ev.failEv (gs "f")] } :=
  claim_C2_amended.1 cexCfg failWorld (gs "f") [] (initState (gs "f")) rfl (by decide) rfl

set_option maxRecDepth 8192 in
/-- Claim C2 counterexample: the seed links `f` (fetch fails) and `b`; `b`
links `f` again; `f` is fetched twice in the same run. -/
theorem claim_C2_counterexample :
    (attList (runCrawl cexCfg cexWorldC2 10 (initState cexBase)).trace).count
        (cexBase ++ gs "/f") = 2 := by
  decide

/-! ## Claim C10 -/

/-- Claim C10 (confirmed): in single-page mode with chapters or pages
organization, `Scrape` writes exactly one file — the seed page's content at
the output directory joined with the page's filename — and never an index
(the write list is exactly that singleton); in single organization the seed
page's content is written verbatim (no corpus title header) to the
configured output path. -/
theorem claim_C10 (cfg : CrawlConfig) (world : World) (fuel : Nat) (p : GoPage)
    (lr : Option (List GoStr)) (hsp : cfg.singlePage = true)
    (hw : world cfg.baseURL = FetchResult.page p lr) :
    ((cfg.organization = Organization.ByChapters ∨ cfg.organization = Organization.ByPages) →
      scrapeGo cfg world fuel = some [(goJoin cfg.outputDir p.filename, p.content)]) ∧
    (cfg.organization = Organization.SingleFile →
      scrapeGo cfg world fuel = some [(cfg.outputPath, p.content)]) := by
  constructor
  · intro horg
    have hne : cfg.organization ≠ Organization.SingleFile := by
      rcases horg with h | h <;> rw [h] <;> intro hc <;> exact Organization.noConfusion hc
    unfold scrapeGo
    rw [if_pos hsp]
    simp only [hw]
    rw [if_neg hne]
  · intro horg
    unfold scrapeGo
    rw [if_pos hsp]
    simp only [hw]
    rw [if_pos horg]

/-- Witness for claim C10's theorem: single-page mode, pages organization, at
a concrete configuration and network. -/
theorem claim_C10_witness :
    scrapeGo c10Cfg c10World 0 =
      some [(goJoin c10Cfg.outputDir cexPage.filename, cexPage.content)] :=
  (claim_C10 c10Cfg c10World 0 cexPage none rfl rfl).1 (Or.inr rfl)

/-! ## Claim C3 -/

/-- Claim C3 (code bug): the claim (and the spec) say an empty title makes the
filename fall back to the URL's final path segment, and the code visibly
attempts this (`if filename == ""` at src/main.go line 310) — but
`sanitizeFilename` never returns the empty string (first conjunct), so the
fallback is dead code and an empty title always yields `unnamed.md` (second
conjunct) instead of the sanitized final URL segment (third conjunct). -/
theorem claim_C3_code_bug :
    (∀ title : GoBytes, sanitizeFilename title ≠ []) ∧
    deriveFilename [] (asciiBytes "https://example.com/docs/guide") = asciiBytes "unnamed.md" ∧
    sanitizeFilename (goFilepathBase (asciiBytes "https://example.com/docs/guide")) ++
        asciiBytes ".md" = asciiBytes "guide.md" :=
  ⟨sanitizeFilename_ne_nil, by decide, by decide⟩

end DocScraper
